import Mathlib

/-!
Shallow embedding of `src/competitor_scanner.js` (class `CompetitorAnalyzer`).

Strings are modelled as `List Char`.  JavaScript's `String.prototype.trim`,
the regex character classes `\s`, `\d`, `\w` and the word-boundary assertion
`\b` are modelled over an explicit ASCII whitespace/word-character set.
`Array.prototype.sort` (ES2019 and later: a stable sort consistent with the
comparator) is modelled by `List.insertionSort`, which is stable.
Capture timestamps (`new Date().toISOString()`) are modelled as an explicit
`now` argument, and the page/network side effects of `scrapeCompetitor` are
modelled by an `Except`-valued outcome describing whether fetching plus raw
extraction for the target succeeded or threw.
-/

namespace CompetitorScanner

/-- Whitespace test shared by the embedding of `trim()` and of the regex class. -/
def isWS (c : Char) : Bool :=
  c == ' ' || c == '\t' || c == '\n' || c == '\r' || c == '\x0b' || c == '\x0c'

/-- The regex class `\d`. -/
def isDigitCh (c : Char) : Bool := decide ('0' ≤ c) && decide (c ≤ '9')

/-- The regex class `\w`, used by the word-boundary assertion. -/
def isWordCh (c : Char) : Bool :=
  (decide ('a' ≤ c) && decide (c ≤ 'z')) || (decide ('A' ≤ c) && decide (c ≤ 'Z'))
    || isDigitCh c || c == '_'

/-- ASCII lower-casing, the embedding of `toLowerCase()` and of the `i` regex flag. -/
def asciiLower (c : Char) : Char :=
  if decide ('A' ≤ c) && decide (c ≤ 'Z') then Char.ofNat (c.toNat + 32) else c

/-- `String.prototype.trim()`. -/
def jsTrim (s : List Char) : List Char :=
  ((s.dropWhile isWS).reverse.dropWhile isWS).reverse

/-- `String.prototype.toLowerCase()`. -/
def jsToLower (s : List Char) : List Char := s.map asciiLower

/-- `String.prototype.split('\n')`. -/
def splitLines : List Char → List (List Char)
  | [] => [[]]
  | c :: cs =>
    if c == '\n' then [] :: splitLines cs
    else
      match splitLines cs with
      | [] => [[c]]
      | l :: ls => (c :: l) :: ls

/-- The `'No title'` sentinel of `extractTitle`. -/
def noTitle : List Char := "No title".data

/-- The `'...'` ellipsis marker. -/
def ellipsis : List Char := "...".data

/-- `extractTitle(text)` from the source: split into lines, drop blank lines,
take the first remaining line trimmed, truncating past 100 characters. -/
def extractTitle (text : List Char) : List Char :=
  match (splitLines text).filter (fun l => !(jsTrim l).isEmpty) with
  | [] => noTitle
  | l :: _ =>
    let title := jsTrim l
    if 100 < title.length then title.take 100 ++ ellipsis else title

/-- Decimal digit rendering helper (fuel-structured so the kernel can evaluate it). -/
def natCharsAux : Nat → Nat → List Char
  | 0, _ => []
  | fuel + 1, n => if n == 0 then [] else natCharsAux fuel (n / 10) ++ [Nat.digitChar (n % 10)]

/-- Decimal rendering of a natural number, as produced by a JS template literal. -/
def natChars (n : Nat) : List Char := if n == 0 then ['0'] else natCharsAux (n + 1) n

/-- Month alternatives of the long-form date regex, in alternation order, lower-cased. -/
def monthNames : List (List Char) :=
  ["january".data, "february".data, "march".data, "april".data, "may".data, "june".data,
   "july".data, "august".data, "september".data, "october".data, "november".data,
   "december".data]

/-- Case-insensitive literal match: on success returns the consumed original
characters together with the remaining input. -/
def matchCI : List Char → List Char → Option (List Char × List Char)
  | [], s => some ([], s)
  | _ :: _, [] => none
  | k :: ks, c :: cs =>
    if asciiLower c == k then
      match matchCI ks cs with
      | some (t, r) => some (c :: t, r)
      | none => none
    else none

/-- First month alternative matching at the current position. -/
def matchMonthName : List (List Char) → List Char → Option (List Char × List Char)
  | [], _ => none
  | m :: ms, s =>
    match matchCI m s with
    | some tr => some tr
    | none => matchMonthName ms s

/-- Exactly `n` decimal digits. -/
def takeDigits : Nat → List Char → Option (List Char × List Char)
  | 0, s => some ([], s)
  | _ + 1, [] => none
  | n + 1, c :: cs =>
    if isDigitCh c then
      match takeDigits n cs with
      | some (t, r) => some (c :: t, r)
      | none => none
    else none

/-- The trailing word-boundary assertion `\b` after a word character. -/
def boundaryAfter : List Char → Bool
  | [] => true
  | c :: _ => !isWordCh c

/-- Tail of the long-form date pattern after the month name and the first
whitespace run: `\d{1,2},?\s+\d{4}\b` with the day width fixed to `dayLen`. -/
def matchATail (dayLen : Nat) (r2 : List Char) : Option (List Char) := do
  let (day, r3) ← takeDigits dayLen r2
  let (comma, r4) :=
    match r3 with
    | ',' :: rest => (([','] : List Char), rest)
    | _ => (([] : List Char), r3)
  let ws2 := r4.takeWhile isWS
  guard (ws2 ≠ [])
  let (year, r6) ← takeDigits 4 (r4.dropWhile isWS)
  guard (boundaryAfter r6 = true)
  pure (day ++ comma ++ ws2 ++ year)

/-- The long-form date regex anchored at the current position (the leading `\b`
is checked by the scanner).  The day quantifier `\d{1,2}` is greedy: the
two-digit reading is tried before the one-digit one, mirroring backtracking. -/
def matchAAt (s : List Char) : Option (List Char) := do
  let (mTok, r1) ← matchMonthName monthNames s
  let ws1 := r1.takeWhile isWS
  guard (ws1 ≠ [])
  let r2 := r1.dropWhile isWS
  let tail ← matchATail 2 r2 <|> matchATail 1 r2
  pure (mTok ++ ws1 ++ tail)

/-- One literal character. -/
def expectChar (c : Char) : List Char → Option (List Char)
  | [] => none
  | x :: xs => if x == c then some xs else none

/-- The slash-date regex `\d{1,2}\/\d{1,2}\/\d{4}\b` with both quantifier
widths fixed. -/
def matchBCore (d1 d2 : Nat) (s : List Char) : Option (List Char) := do
  let (a, r1) ← takeDigits d1 s
  let r2 ← expectChar '/' r1
  let (b, r3) ← takeDigits d2 r2
  let r4 ← expectChar '/' r3
  let (y, r5) ← takeDigits 4 r4
  guard (boundaryAfter r5 = true)
  pure (a ++ '/' :: b ++ '/' :: y)

/-- The slash-date regex anchored at the current position, quantifier widths
tried in greedy backtracking order. -/
def matchBAt (s : List Char) : Option (List Char) :=
  matchBCore 2 2 s <|> matchBCore 2 1 s <|> matchBCore 1 2 s <|> matchBCore 1 1 s

/-- The ISO date regex `\d{4}-\d{2}-\d{2}\b` anchored at the current position. -/
def matchCAt (s : List Char) : Option (List Char) := do
  let (y, r1) ← takeDigits 4 s
  let r2 ← expectChar '-' r1
  let (m, r3) ← takeDigits 2 r2
  let r4 ← expectChar '-' r3
  let (d, r5) ← takeDigits 2 r4
  guard (boundaryAfter r5 = true)
  pure (y ++ '-' :: m ++ '-' :: d)

/-- Leftmost-match scanner: `String.prototype.match` without the `g` flag.
`prevW` records whether the previous character is a word character; all three
date patterns and every keyword start with a word character, so the leading
`\b` holds exactly when `prevW` is false. -/
def scanWith (f : List Char → Option (List Char)) : Bool → List Char → Option (List Char)
  | prevW, [] => if prevW then none else f []
  | prevW, c :: cs =>
    match (if prevW then none else f (c :: cs)) with
    | some m => some m
    | none => scanWith f (isWordCh c) cs

/-- The date-extraction cascade from `processContent`: the three regex
families are tried over the whole text in order, stopping at the first family
that matches. -/
def dateMatch (s : List Char) : Option (List Char) :=
  scanWith matchAAt false s <|> scanWith matchBAt false s <|> scanWith matchCAt false s

/-- Keyword alternatives of the update-classification regex, in alternation
order, lower-cased. -/
def keywords : List (List Char) :=
  ["new".data, "update".data, "release".data, "feature".data, "improvement".data,
   "launch".data, "announce".data, "version".data, "fix".data, "enhancement".data]

/-- One keyword matched case-insensitively at the current position, followed by
the trailing word boundary. -/
def kwAt : List Char → List Char → Bool
  | [], rest => boundaryAfter rest
  | _ :: _, [] => false
  | k :: ks, c :: cs => asciiLower c == k && kwAt ks cs

/-- Some keyword matches at the current position. -/
def kwHere (s : List Char) : Bool := keywords.any (fun kw => kwAt kw s)

/-- Scanner for the update-classification regex test; `prevW` as in `scanWith`. -/
def kwScan : Bool → List Char → Bool
  | _, [] => false
  | prevW, c :: cs => (!prevW && kwHere (c :: cs)) || kwScan (isWordCh c) cs

/-- `/\b(new|update|release|feature|improvement|launch|announce|version|fix|enhancement)\b/i.test(text)`. -/
def isUpdateText (s : List Char) : Bool := kwScan false s

/-- A raw content record handed to `processContent`. -/
structure RawRecord where
  text : List Char
  html : List Char
  tagName : List Char
  className : List Char
deriving DecidableEq

/-- The update-item objects pushed by `processContent`. -/
structure UpdateItem where
  id : List Char
  competitor : List Char
  title : List Char
  content : List Char
  fullContent : List Char
  extractedDate : Option (List Char)
  isLikelyUpdate : Bool
  contentLength : Nat
  extractedAt : List Char
deriving DecidableEq

/-- One entry of the static `competitors` configuration object. -/
structure Competitor where
  key : List Char
  name : List Char
  url : List Char
  selector : List Char
  fallbackSelectors : List (List Char)
deriving DecidableEq

/-- The per-target result object returned by `scrapeCompetitor`. -/
structure CompetitorResult where
  competitor : List Char
  url : List Char
  scrapedAt : List Char
  error : Option (List Char)
  itemCount : Nat
  items : List UpdateItem
deriving DecidableEq

/-- Data captured from one matched page element by the in-page evaluation of
`extractContentFromElements` (`innerText` and `innerHTML` may be undefined). -/
structure PageElement where
  innerText : Option (List Char)
  innerHTML : Option (List Char)
  tagName : List Char
  className : List Char
deriving DecidableEq

/-- The item object pushed for one record, with `index` its position in the
pre-filter input sequence. -/
def mkItem (competitorName now : List Char) (index : Nat) (text : List Char) : UpdateItem :=
  { id := jsToLower competitorName ++ '_' :: natChars index,
    competitor := competitorName,
    title := extractTitle text,
    content := text.take 500 ++ (if 500 < text.length then ellipsis else []),
    fullContent := text,
    extractedDate := dateMatch text,
    isLikelyUpdate := isUpdateText text,
    contentLength := text.length,
    extractedAt := now }

/-- The dedup fingerprint `text.substring(0, 100)`. -/
def fingerprint (text : List Char) : List Char := text.take 100

/-- The `rawContent.forEach` loop body of `processContent`: per-record trim,
length filter, dedup against the `seenTexts` set, and item construction. -/
def processRecords (competitorName now : List Char) :
    Nat → List (List Char) → List RawRecord → List UpdateItem
  | _, _, [] => []
  | index, seen, r :: rs =>
    if (jsTrim r.text).length < 30 ∨ fingerprint (jsTrim r.text) ∈ seen then
      processRecords competitorName now (index + 1) seen rs
    else
      mkItem competitorName now index (jsTrim r.text) ::
        processRecords competitorName now (index + 1) (fingerprint (jsTrim r.text) :: seen) rs

/-- The sort comparator at the end of `processContent`. -/
def cmpItems (a b : UpdateItem) : Int :=
  if a.isLikelyUpdate && !b.isLikelyUpdate then -1
  else if !a.isLikelyUpdate && b.isLikelyUpdate then 1
  else (b.contentLength : Int) - (a.contentLength : Int)

/-- The total preorder induced by the comparator (`cmpItems a b ≤ 0` means `a`
may come before `b`). -/
def itemLE (a b : UpdateItem) : Prop := cmpItems a b ≤ 0

instance : DecidableRel itemLE := fun a b => inferInstanceAs (Decidable (cmpItems a b ≤ 0))

instance : IsTotal UpdateItem itemLE :=
  ⟨fun a b => by
    unfold itemLE cmpItems
    cases a.isLikelyUpdate <;> cases b.isLikelyUpdate <;> simp <;> omega⟩

instance : IsTrans UpdateItem itemLE :=
  ⟨fun a b c => by
    unfold itemLE cmpItems
    cases a.isLikelyUpdate <;> cases b.isLikelyUpdate <;> cases c.isLikelyUpdate <;>
      simp <;> omega⟩

/-- `processContent(rawContent, competitorName)`: the per-record pass followed
by the stable comparator sort. -/
def processContent (rawContent : List RawRecord) (competitorName now : List Char) :
    List UpdateItem :=
  List.insertionSort itemLE (processRecords competitorName now 0 [] rawContent)

/-- `el.innerText?.trim() || ''`. -/
def elementText (el : PageElement) : List Char :=
  match el.innerText with
  | some t => jsTrim t
  | none => []

/-- `extractContentFromElements`: the first 20 elements are examined and an
element contributes a record iff its trimmed text is truthy and longer than 20
characters. -/
def extractContentFromElements (elements : List PageElement) : List RawRecord :=
  (elements.take 20).filterMap (fun el =>
    if elementText el ≠ [] ∧ 20 < (elementText el).length then
      some { text := elementText el,
             html := (match el.innerHTML with | some h => h.take 1000 | none => []),
             tagName := el.tagName,
             className := el.className }
    else none)

/-- `scrapeCompetitor`: a successful fetch-and-extract outcome is normalized
through `processContent`; a thrown error is caught and converted into an
error-bearing result with zero items. -/
def scrapeCompetitor (c : Competitor) (outcome : Except (List Char) (List RawRecord))
    (now : List Char) : CompetitorResult :=
  match outcome with
  | Except.ok raw =>
    let processed := processContent raw c.name now
    { competitor := c.name, url := c.url, scrapedAt := now, error := none,
      itemCount := processed.length, items := processed }
  | Except.error msg =>
    { competitor := c.name, url := c.url, scrapedAt := now, error := some msg,
      itemCount := 0, items := [] }

/-- The Braze entry of the `competitors` configuration. -/
def brazeTarget : Competitor :=
  { key := "braze".data, name := "Braze".data,
    url := "https://www.braze.com/docs/help/release_notes".data,
    selector :=
      ".release-note, .changelog-entry, [data-testid=\"release-note\"], .content-section".data,
    fallbackSelectors := ["article".data, ".markdown-body".data, ".content".data, "main".data] }

/-- The Iterable entry of the `competitors` configuration. -/
def iterableTarget : Competitor :=
  { key := "iterable".data, name := "Iterable".data,
    url := "https://support.iterable.com/hc/en-us/articles/33302033277332-2025-Release-Notes".data,
    selector := ".article-body, .article-content, .zendesk-article".data,
    fallbackSelectors := [".article-body".data, "article".data, ".content".data, "main".data] }

/-- The Klaviyo entry of the `competitors` configuration. -/
def klaviyoTarget : Competitor :=
  { key := "klaviyo".data, name := "Klaviyo".data,
    url := "https://www.klaviyo.com/whats-new".data,
    selector := ".whats-new-item, .update-card, .release-item".data,
    fallbackSelectors := [".card".data, ".update".data, "article".data, ".content".data,
      "main".data] }

/-- The `competitors` configuration in object-key order. -/
def competitors : List Competitor := [brazeTarget, iterableTarget, klaviyoTarget]

/-- The `run` orchestration loop: every configured target is scraped in order
and wrapped into a result; `oracle` abstracts the per-target network outcome. -/
def run (targets : List Competitor)
    (oracle : Competitor → Except (List Char) (List RawRecord)) (now : List Char) :
    List CompetitorResult :=
  targets.map (fun c => scrapeCompetitor c (oracle c) now)

/-- Decimal value of a digit string; decoding inverse used to show that
`natChars` is injective. -/
def digitsVal (l : List Char) : Nat := l.foldl (fun acc c => acc * 10 + (c.toNat - 48)) 0

/-- The specification's reading of update classification: the text contains,
case-insensitively, one of the keywords as a whole word delimited by word
boundaries. -/
def HasKeyword (s : List Char) : Prop :=
  ∃ pre w post, s = pre ++ w ++ post ∧ jsToLower w ∈ keywords ∧
    (∀ c, pre.getLast? = some c → isWordCh c = false) ∧
    (∀ c, post.head? = some c → isWordCh c = false)

/-! ## Sample inputs for concrete instantiations -/

/-- A capture timestamp sample. -/
def sampleNow : List Char := "2025-01-15T10:30:00.000Z".data

/-- A competitor display name sample. -/
def sampleName : List Char := "Braze".data

/-- A record whose trimmed text has exactly 30 characters. -/
def sampleRec30 : RawRecord :=
  { text := "abcdefghij klmnopqrst uvwxyzab".data, html := [], tagName := [], className := [] }

/-- A record whose trimmed text has exactly 29 characters. -/
def sampleRec29 : RawRecord :=
  { text := "abcdefghij klmnopqrst uvwxyza".data, html := [], tagName := [], className := [] }

/-- A record whose first line is literally the title sentinel text. -/
def sampleNoTitleRec : RawRecord :=
  { text := "No title\nabcdefghij klmnopqrstu".data, html := [], tagName := [], className := [] }

/-- Text containing an ISO date before a long-form date. -/
def sampleBothText : List Char := "Released 2025-01-02 and January 5, 2025".data

/-- Text whose only brush with a keyword is the substring of a longer word. -/
def sampleNewsletter : List Char := "we mailed the newsletter to subscribers yesterday".data

/-- Whitespace-only text: no non-blank line. -/
def sampleBlank : List Char := "  \n \n ".data

/-- A page element whose trimmed visible text has exactly 20 characters. -/
def sampleEl20 : PageElement :=
  { innerText := some "aaaaaaaaaaaaaaaaaaaa".data, innerHTML := none,
    tagName := "DIV".data, className := [] }

/-- A page element whose trimmed visible text has exactly 21 characters. -/
def sampleEl21 : PageElement :=
  { innerText := some "aaaaaaaaaaaaaaaaaaaaa".data, innerHTML := none,
    tagName := "DIV".data, className := [] }

/-- A fetch-failure message sample. -/
def sampleErr : List Char := "Navigation timeout of 30000 ms exceeded".data

/-- An outcome oracle making every fetch fail. -/
def sampleOracle : Competitor → Except (List Char) (List RawRecord) :=
  fun _ => Except.error sampleErr

/-! ## Helper lemmas -/

theorem digitsVal_append_singleton (xs : List Char) (c : Char) :
    digitsVal (xs ++ [c]) = digitsVal xs * 10 + (c.toNat - 48) := by
  simp [digitsVal, List.foldl_append]

theorem digitChar_val_sub : ∀ d, d < 10 → (Nat.digitChar d).toNat - 48 = d := by decide

theorem natCharsAux_val : ∀ fuel n, n < fuel → digitsVal (natCharsAux fuel n) = n := by
  intro fuel
  induction fuel with
  | zero => intro n hn; omega
  | succ fuel ih =>
    intro n hn
    by_cases h0 : n = 0
    · subst h0; simp [natCharsAux, digitsVal]
    · have hdiv : n / 10 < n := Nat.div_lt_self (Nat.pos_of_ne_zero h0) (by omega)
      have hfuel : n / 10 < fuel := by omega
      have hne : (n == 0) = false := by simp [h0]
      rw [natCharsAux, hne]
      simp only [Bool.false_eq_true, if_false]
      rw [digitsVal_append_singleton, ih _ hfuel,
        digitChar_val_sub _ (Nat.mod_lt _ (by omega))]
      omega

theorem natChars_val (n : Nat) : digitsVal (natChars n) = n := by
  by_cases h0 : n = 0
  · subst h0; simp [natChars, digitsVal]
  · have hne : (n == 0) = false := by simp [h0]
    rw [natChars, hne]
    simp only [Bool.false_eq_true, if_false]
    exact natCharsAux_val _ _ (Nat.lt_succ_self n)

theorem natChars_inj {m n : Nat} (h : natChars m = natChars n) : m = n := by
  have := congrArg digitsVal h
  rwa [natChars_val, natChars_val] at this

theorem mkId_inj {name : List Char} {i j : Nat}
    (h : jsToLower name ++ '_' :: natChars i = jsToLower name ++ '_' :: natChars j) :
    i = j := by
  have h2 := List.append_cancel_left h
  exact natChars_inj (List.cons.injEq _ _ _ _ ▸ h2).2

theorem jsTrim_ne_nil_of_mem {s : List Char} {c : Char} (hc : c ∈ s)
    (hw : isWS c = false) : jsTrim s ≠ [] := by
  intro h
  have h1 : (s.dropWhile isWS).reverse.dropWhile isWS = [] := by
    have := congrArg List.reverse h
    simpa [jsTrim] using this
  have h2 : ∀ x ∈ (s.dropWhile isWS).reverse, isWS x := List.dropWhile_eq_nil_iff.mp h1
  have hcd : c ∈ s.dropWhile isWS := by
    have hsplit : s.takeWhile isWS ++ s.dropWhile isWS = s := List.takeWhile_append_dropWhile ..
    rcases (List.mem_append.mp (hsplit ▸ hc)) with htk | hdr
    · exact absurd (List.mem_takeWhile_imp htk) (by simp [hw])
    · exact hdr
  have := h2 c (List.mem_reverse.mpr hcd)
  simp [hw] at this

theorem jsTrim_head?_not_ws {s : List Char} {c : Char} (h : (jsTrim s).head? = some c) :
    isWS c = false := by
  have h1 : ((s.dropWhile isWS).reverse.dropWhile isWS).getLast? = some c := by
    rw [← List.head?_reverse]; exact h
  have hB : (s.dropWhile isWS).reverse.dropWhile isWS ≠ [] := by
    intro hnil; rw [hnil] at h1; simp at h1
  have hsplit : ((s.dropWhile isWS).reverse.takeWhile isWS) ++
      ((s.dropWhile isWS).reverse.dropWhile isWS) = (s.dropWhile isWS).reverse :=
    List.takeWhile_append_dropWhile ..
  have h2 : (s.dropWhile isWS).reverse.getLast? = some c := by
    rw [← hsplit, List.getLast?_append, h1]; rfl
  have h3 : (s.dropWhile isWS).head? = some c := by
    rw [← List.getLast?_reverse]; exact h2
  have hA : s.dropWhile isWS ≠ [] := by
    intro hnil; rw [hnil] at h3; simp at h3
  rw [List.head?_eq_head hA, Option.some.injEq] at h3
  rw [← h3]
  exact List.head_dropWhile_not isWS s hA

theorem jsTrim_getLast?_not_ws {s : List Char} {c : Char}
    (h : (jsTrim s).getLast? = some c) : isWS c = false := by
  have h1 : ((s.dropWhile isWS).reverse.dropWhile isWS).head? = some c := by
    have := List.getLast?_reverse ((s.dropWhile isWS).reverse.dropWhile isWS)
    rw [← this]; exact h
  have hB : (s.dropWhile isWS).reverse.dropWhile isWS ≠ [] := by
    intro hnil; rw [hnil] at h1; simp at h1
  rw [List.head?_eq_head hB, Option.some.injEq] at h1
  rw [← h1]
  exact List.head_dropWhile_not isWS (s.dropWhile isWS).reverse hB

theorem dropWhile_eq_self_of_head? {p : Char → Bool} {l : List Char}
    (h : ∀ c, l.head? = some c → p c = false) : l.dropWhile p = l := by
  cases l with
  | nil => rfl
  | cons c cs => rw [List.dropWhile_cons, h c rfl]; simp

theorem jsTrim_idem (s : List Char) : jsTrim (jsTrim s) = jsTrim s := by
  have h1 : (jsTrim s).dropWhile isWS = jsTrim s :=
    dropWhile_eq_self_of_head? (fun c hc => jsTrim_head?_not_ws hc)
  have h2 : (jsTrim s).reverse.dropWhile isWS = (jsTrim s).reverse := by
    apply dropWhile_eq_self_of_head?
    intro c hc
    rw [List.head?_reverse] at hc
    exact jsTrim_getLast?_not_ws hc
  rw [jsTrim, h1, h2, List.reverse_reverse]

theorem jsTrim_subset {s : List Char} {c : Char} (h : c ∈ jsTrim s) : c ∈ s := by
  rw [jsTrim, List.mem_reverse] at h
  have h2 := (List.dropWhile_sublist isWS).subset h
  rw [List.mem_reverse] at h2
  exact (List.dropWhile_sublist isWS).subset h2

theorem splitLines_ne_nil (s : List Char) : splitLines s ≠ [] := by
  cases s with
  | nil => simp [splitLines]
  | cons c cs =>
    rw [splitLines]
    split
    · simp
    · split <;> simp

theorem mem_splitLines_of_mem : ∀ {s : List Char} {c : Char}, c ∈ s → c ≠ '\n' →
    ∃ l ∈ splitLines s, c ∈ l := by
  intro s
  induction s with
  | nil => intro c hc _; simp at hc
  | cons a cs ih =>
    intro c hc hne
    rw [splitLines]
    by_cases ha : a = '\n'
    · subst ha
      simp only [beq_self_eq_true, if_true]
      have hcs : c ∈ cs := by
        rcases List.mem_cons.mp hc with h | h
        · exact absurd h hne
        · exact h
      obtain ⟨l, hl, hcl⟩ := ih hcs hne
      exact ⟨l, List.mem_cons_of_mem _ hl, hcl⟩
    · have hb : (a == '\n') = false := beq_eq_false_iff_ne.mpr ha
      simp only [hb, Bool.false_eq_true, if_false]
      cases hsc : splitLines cs with
      | nil => exact absurd hsc (splitLines_ne_nil cs)
      | cons l0 ls0 =>
        rcases List.mem_cons.mp hc with h | h
        · exact ⟨a :: l0, List.mem_cons_self _ _, by rw [h]; exact List.mem_cons_self _ _⟩
        · obtain ⟨l, hl, hcl⟩ := ih h hne
          rw [hsc] at hl
          rcases List.mem_cons.mp hl with rfl | hl2
          · exact ⟨a :: l, List.mem_cons_self _ _, List.mem_cons_of_mem _ hcl⟩
          · exact ⟨l, List.mem_cons_of_mem _ hl2, hcl⟩

theorem newline_not_mem_of_mem_splitLines : ∀ {s l : List Char},
    l ∈ splitLines s → '\n' ∉ l := by
  intro s
  induction s with
  | nil =>
    intro l hl
    simp [splitLines] at hl
    simp [hl]
  | cons a cs ih =>
    intro l hl
    rw [splitLines] at hl
    by_cases ha : a = '\n'
    · subst ha
      simp only [beq_self_eq_true, if_true] at hl
      rcases List.mem_cons.mp hl with rfl | h
      · simp
      · exact ih h
    · have hb : (a == '\n') = false := beq_eq_false_iff_ne.mpr ha
      simp only [hb, Bool.false_eq_true, if_false] at hl
      cases hsc : splitLines cs with
      | nil => exact absurd hsc (splitLines_ne_nil cs)
      | cons l0 ls0 =>
        rw [hsc] at hl
        rcases List.mem_cons.mp hl with rfl | h
        · intro hmem
          rcases List.mem_cons.mp hmem with he | hm
          · exact ha he.symm
          · exact ih (hsc ▸ List.mem_cons_self l0 ls0) hm
        · exact ih (hsc ▸ List.mem_cons_of_mem _ h)

theorem splitLines_of_not_mem : ∀ {s : List Char}, '\n' ∉ s → splitLines s = [s] := by
  intro s
  induction s with
  | nil => intro _; rfl
  | cons a cs ih =>
    intro h
    have ha : a ≠ '\n' := fun he => h (he ▸ List.mem_cons_self a cs)
    have hb : (a == '\n') = false := beq_eq_false_iff_ne.mpr ha
    have hcs : '\n' ∉ cs := fun hm => h (List.mem_cons_of_mem _ hm)
    rw [splitLines, hb]
    simp only [Bool.false_eq_true, if_false]
    rw [ih hcs]

theorem extractTitle_of_filter_nil {t : List Char}
    (h : (splitLines t).filter (fun l => !(jsTrim l).isEmpty) = []) :
    extractTitle t = noTitle := by
  simp only [extractTitle, h]

theorem extractTitle_of_filter_cons {t l : List Char} {ls : List (List Char)}
    (h : (splitLines t).filter (fun l => !(jsTrim l).isEmpty) = l :: ls) :
    extractTitle t =
      if 100 < (jsTrim l).length then (jsTrim l).take 100 ++ ellipsis else jsTrim l := by
  simp only [extractTitle, h]

theorem extractTitle_idem {t : List Char} (h : (extractTitle t).length < 100) :
    extractTitle (extractTitle t) = extractTitle t := by
  cases hf : (splitLines t).filter (fun l => !(jsTrim l).isEmpty) with
  | nil =>
    rw [extractTitle_of_filter_nil hf]
    rfl
  | cons l ls =>
    have he := extractTitle_of_filter_cons hf
    by_cases hlen : 100 < (jsTrim l).length
    · exfalso
      rw [he, if_pos hlen, List.length_append, List.length_take] at h
      have h3 : ellipsis.length = 3 := rfl
      omega
    · rw [he, if_neg hlen]
      have hmemf : l ∈ (splitLines t).filter (fun x => !(jsTrim x).isEmpty) := by
        rw [hf]; exact List.mem_cons_self _ _
      have hl2 := List.mem_filter.mp hmemf
      have hnb : (jsTrim l).isEmpty = false := by
        have := hl2.2
        simp only [Bool.not_eq_true'] at this
        exact this
      have hne : jsTrim l ≠ [] := by
        intro hx; rw [hx] at hnb; simp at hnb
      have hnl : '\n' ∉ jsTrim l := fun hm =>
        newline_not_mem_of_mem_splitLines hl2.1 (jsTrim_subset hm)
      have hfilter : (splitLines (jsTrim l)).filter (fun x => !(jsTrim x).isEmpty)
          = [jsTrim l] := by
        rw [splitLines_of_not_mem hnl]
        simp [List.filter_cons, jsTrim_idem, hnb]
      rw [extractTitle_of_filter_cons hfilter, jsTrim_idem, if_neg hlen]

theorem length_fingerprint (text : List Char) :
    (fingerprint text).length = min 100 text.length := by
  simp [fingerprint]

/-- Characterization of the records pass: every produced item stems from a
record at some pre-filter index `k`, its trimmed text passed the length
filter, its fingerprint was not previously seen, and no earlier record of the
batch shares its fingerprint. -/
theorem processRecords_mem {competitorName now : List Char} :
    ∀ (rs : List RawRecord) (i : Nat) (seen : List (List Char)) (it : UpdateItem),
      it ∈ processRecords competitorName now i seen rs →
      ∃ k, ∃ hk : k < rs.length,
        it = mkItem competitorName now (i + k) (jsTrim (rs.get ⟨k, hk⟩).text) ∧
        30 ≤ (jsTrim (rs.get ⟨k, hk⟩).text).length ∧
        fingerprint (jsTrim (rs.get ⟨k, hk⟩).text) ∉ seen ∧
        ∀ j, ∀ hj : j < rs.length, j < k →
          fingerprint (jsTrim (rs.get ⟨j, hj⟩).text) ≠
            fingerprint (jsTrim (rs.get ⟨k, hk⟩).text) := by
  intro rs
  induction rs with
  | nil => intro i seen it h; simp [processRecords] at h
  | cons r rs ih =>
    intro i seen it h
    rw [processRecords] at h
    by_cases hc : (jsTrim r.text).length < 30 ∨ fingerprint (jsTrim r.text) ∈ seen
    · rw [if_pos hc] at h
      obtain ⟨k, hk, heq, hlen, hseen, hnodup⟩ := ih (i + 1) seen it h
      refine ⟨k + 1, by simpa using Nat.succ_lt_succ hk, ?_, ?_, ?_, ?_⟩
      · have harith : i + (k + 1) = (i + 1) + k := by omega
        rw [harith]
        simpa using heq
      · simpa using hlen
      · simpa using hseen
      · intro j hj hjk
        cases j with
        | zero =>
          simp only [List.get_eq_getElem, List.getElem_cons_zero, List.getElem_cons_succ]
          rcases hc with hshort | hdup
          · intro habs
            have hlenk : 30 ≤ (jsTrim (rs.get ⟨k, hk⟩).text).length := hlen
            have := congrArg List.length habs
            rw [length_fingerprint, length_fingerprint] at this
            simp only [List.get_eq_getElem] at hlenk
            omega
          · intro habs
            apply hseen
            simp only [List.get_eq_getElem] at habs ⊢
            rw [← habs]
            exact hdup
        | succ j =>
          have hj' : j < rs.length := by simpa using Nat.lt_of_succ_lt_succ hj
          have := hnodup j hj' (Nat.lt_of_succ_lt_succ hjk)
          simpa using this
    · rw [if_neg hc] at h
      push_neg at hc
      rcases List.mem_cons.mp h with rfl | htail
      · refine ⟨0, by simp, ?_, ?_, ?_, ?_⟩
        · simp
        · simpa using hc.1
        · simpa using hc.2
        · intro j hj hjk; omega
      · obtain ⟨k, hk, heq, hlen, hseen, hnodup⟩ :=
          ih (i + 1) (fingerprint (jsTrim r.text) :: seen) it htail
        have hnotseen := fun hm => hseen (List.mem_cons_of_mem _ hm)
        have hnotfp : fingerprint (jsTrim (rs.get ⟨k, hk⟩).text) ≠
            fingerprint (jsTrim r.text) := by
          intro habs
          exact hseen (habs ▸ List.mem_cons_self _ _)
        refine ⟨k + 1, by simpa using Nat.succ_lt_succ hk, ?_, ?_, ?_, ?_⟩
        · have harith : i + (k + 1) = (i + 1) + k := by omega
          rw [harith]
          simpa using heq
        · simpa using hlen
        · simpa using hnotseen
        · intro j hj hjk
          cases j with
          | zero =>
            simp only [List.get_eq_getElem, List.getElem_cons_zero, List.getElem_cons_succ]
            simp only [List.get_eq_getElem] at hnotfp
            exact fun habs => hnotfp habs.symm
          | succ j =>
            have hj' : j < rs.length := by simpa using Nat.lt_of_succ_lt_succ hj
            have := hnodup j hj' (Nat.lt_of_succ_lt_succ hjk)
            simpa using this

/-- Produced items have pairwise distinct ids. -/
theorem processRecords_pairwise_id {competitorName now : List Char} :
    ∀ (rs : List RawRecord) (i : Nat) (seen : List (List Char)),
      List.Pairwise (fun a b => a.id ≠ b.id)
        (processRecords competitorName now i seen rs) := by
  intro rs
  induction rs with
  | nil => intro i seen; simp [processRecords]
  | cons r rs ih =>
    intro i seen
    rw [processRecords]
    by_cases hc : (jsTrim r.text).length < 30 ∨ fingerprint (jsTrim r.text) ∈ seen
    · rw [if_pos hc]; exact ih _ _
    · rw [if_neg hc]
      refine List.Pairwise.cons ?_ (ih _ _)
      intro b hb
      obtain ⟨k, hk, heq, -, -, -⟩ := processRecords_mem _ _ _ _ hb
      rw [heq]
      simp only [mkItem]
      intro hid
      have := mkId_inj hid
      omega

/-- Produced items have pairwise distinct fingerprints of their full text. -/
theorem processRecords_pairwise_fp {competitorName now : List Char} :
    ∀ (rs : List RawRecord) (i : Nat) (seen : List (List Char)),
      List.Pairwise (fun a b => fingerprint a.fullContent ≠ fingerprint b.fullContent)
        (processRecords competitorName now i seen rs) := by
  intro rs
  induction rs with
  | nil => intro i seen; simp [processRecords]
  | cons r rs ih =>
    intro i seen
    rw [processRecords]
    by_cases hc : (jsTrim r.text).length < 30 ∨ fingerprint (jsTrim r.text) ∈ seen
    · rw [if_pos hc]; exact ih _ _
    · rw [if_neg hc]
      refine List.Pairwise.cons ?_ (ih _ _)
      intro b hb
      obtain ⟨k, hk, heq, -, hseen, -⟩ := processRecords_mem _ _ _ _ hb
      rw [heq]
      simp only [mkItem]
      intro habs
      exact hseen (habs ▸ List.mem_cons_self _ _)

theorem mem_processContent_iff {raw : List RawRecord} {name now : List Char}
    {it : UpdateItem} :
    it ∈ processContent raw name now ↔ it ∈ processRecords name now 0 [] raw := by
  unfold processContent
  exact List.mem_insertionSort itemLE

theorem itemLE_iff {a b : UpdateItem} :
    itemLE a b ↔ (a.isLikelyUpdate = true ∧ b.isLikelyUpdate = false) ∨
      (a.isLikelyUpdate = b.isLikelyUpdate ∧ b.contentLength ≤ a.contentLength) := by
  unfold itemLE cmpItems
  cases ha : a.isLikelyUpdate <;> cases hb : b.isLikelyUpdate <;> simp <;> omega

/-- Filtering by a predicate that forces comparator-equivalence commutes with
`orderedInsert`: the inserted element lands in front of the surviving ones. -/
theorem filter_orderedInsert {p : UpdateItem → Bool}
    (hp : ∀ x y, p x = true → p y = true → itemLE x y) (b : UpdateItem) :
    ∀ s : List UpdateItem, (s.orderedInsert itemLE b).filter p =
      if p b then b :: s.filter p else s.filter p := by
  intro s
  induction s with
  | nil =>
    rw [List.orderedInsert_nil]
    cases hpb : p b <;> simp [List.filter_cons, hpb]
  | cons y ys ih =>
    rw [List.orderedInsert]
    by_cases hr : itemLE b y
    · rw [if_pos hr]
      cases hpb : p b <;> simp [List.filter_cons, hpb]
    · rw [if_neg hr]
      cases hpy : p y with
      | false =>
        cases hpb : p b <;> simp [List.filter_cons, hpy, hpb, ih]
      | true =>
        have hpb : p b = false := by
          cases hpbv : p b with
          | false => rfl
          | true => exact absurd (hp b y hpbv hpy) hr
        simp [List.filter_cons, hpy, hpb, ih]

/-- The comparator sort is stable: filtering by any comparator-equivalence
class preserves the pre-sort order. -/
theorem filter_insertionSort {p : UpdateItem → Bool}
    (hp : ∀ x y, p x = true → p y = true → itemLE x y) :
    ∀ l : List UpdateItem, (List.insertionSort itemLE l).filter p = l.filter p := by
  intro l
  induction l with
  | nil => rfl
  | cons b l ih =>
    rw [List.insertionSort, filter_orderedInsert hp, List.filter_cons]
    cases hpb : p b <;> simp [ih]

/-- Items in one comparator-equivalence class (same flag, same length) compare
below each other. -/
theorem sameKey_itemLE (fl : Bool) (n : Nat) :
    ∀ x y : UpdateItem, (x.isLikelyUpdate == fl && x.contentLength == n) = true →
      (y.isLikelyUpdate == fl && y.contentLength == n) = true → itemLE x y := by
  intro x y hx hy
  rw [Bool.and_eq_true, beq_iff_eq, beq_iff_eq] at hx hy
  rw [itemLE_iff]
  right
  constructor
  · rw [hx.1, hy.1]
  · rw [hx.2, hy.2]

theorem exists_nonblank_line {t : List Char} (hne : jsTrim t ≠ []) :
    (splitLines (jsTrim t)).filter (fun l => !(jsTrim l).isEmpty) ≠ [] := by
  obtain ⟨c, cs, hcons⟩ := List.exists_cons_of_ne_nil hne
  have hhead : (jsTrim t).head? = some c := by rw [hcons]; rfl
  have hcws : isWS c = false := jsTrim_head?_not_ws hhead
  have hcmem : c ∈ jsTrim t := by rw [hcons]; exact List.mem_cons_self _ _
  have hcnl : c ≠ '\n' := by
    intro he; rw [he] at hcws; simp [isWS] at hcws
  obtain ⟨l, hl, hcl⟩ := mem_splitLines_of_mem hcmem hcnl
  intro hnil
  have hmem : l ∈ (splitLines (jsTrim t)).filter (fun x => !(jsTrim x).isEmpty) := by
    apply List.mem_filter.mpr
    refine ⟨hl, ?_⟩
    have hx : jsTrim l ≠ [] := jsTrim_ne_nil_of_mem hcl hcws
    simp only [Bool.not_eq_true', ← Bool.not_eq_true, List.isEmpty_iff]
    simpa using hx
  rw [hnil] at hmem
  simp at hmem

/-! ## Claim theorems -/

/-- C1: the output of `processContent` is sorted so that no likely-update item
ever follows a non-likely one, equal flags are ordered by non-increasing
content length, and equal (flag, length) classes keep their post-filter
relative order (the comparator sort is stable). -/
theorem c1_sorted_and_stable (raw : List RawRecord) (name now : List Char) :
    List.Chain' (fun a b => ¬(b.isLikelyUpdate = true ∧ a.isLikelyUpdate = false) ∧
        (a.isLikelyUpdate = b.isLikelyUpdate → b.contentLength ≤ a.contentLength))
      (processContent raw name now) ∧
    ∀ fl n, (processContent raw name now).filter
        (fun it => it.isLikelyUpdate == fl && it.contentLength == n) =
      (processRecords name now 0 [] raw).filter
        (fun it => it.isLikelyUpdate == fl && it.contentLength == n) := by
  constructor
  · have hs : List.Sorted itemLE (processContent raw name now) :=
      List.sorted_insertionSort itemLE _
    refine (List.Pairwise.chain' hs).imp ?_
    intro a b hab
    rw [itemLE_iff] at hab
    rcases hab with ⟨h1, h2⟩ | ⟨h1, h2⟩
    · refine ⟨fun hx => ?_, fun he => ?_⟩
      · rw [h2] at hx
        exact Bool.false_ne_true hx.1
      · rw [h1, h2] at he
        exact absurd he (by simp)
    · refine ⟨fun hx => ?_, fun _ => h2⟩
      rw [hx.2, hx.1] at h1
      exact Bool.false_ne_true h1
  · intro fl n
    unfold processContent
    exact filter_insertionSort (sameKey_itemLE fl n) _

/-- C1 witness: the adjacent-pair ordering evaluated on a concrete two-record
batch. -/
theorem c1_sorted_and_stable_witness :
    List.Chain' (fun a b => ¬(b.isLikelyUpdate = true ∧ a.isLikelyUpdate = false) ∧
        (a.isLikelyUpdate = b.isLikelyUpdate → b.contentLength ≤ a.contentLength))
      (processContent [sampleRec30, sampleNoTitleRec] sampleName sampleNow) :=
  (c1_sorted_and_stable [sampleRec30, sampleNoTitleRec] sampleName sampleNow).1

/-- C2: an item is emitted only when its trimmed text has at least 30
characters and `contentLength` records that length; the boundary is
inclusive: a 29-character record is rejected, a 30-character one is emitted. -/
theorem c2_length_boundary (raw : List RawRecord) (name now : List Char) (r : RawRecord) :
    (∀ it ∈ processContent raw name now,
        30 ≤ it.contentLength ∧ it.contentLength = it.fullContent.length) ∧
    ((jsTrim r.text).length = 29 → processContent [r] name now = []) ∧
    ((jsTrim r.text).length = 30 →
      ∃ it, processContent [r] name now = [it] ∧ it.fullContent = jsTrim r.text ∧
        it.contentLength = 30) := by
  refine ⟨?_, ?_, ?_⟩
  · intro it hit
    rw [mem_processContent_iff] at hit
    obtain ⟨k, hk, heq, hlen, -, -⟩ := processRecords_mem _ _ _ _ hit
    rw [heq]
    simp only [mkItem]
    exact ⟨hlen, trivial⟩
  · intro h29
    unfold processContent
    rw [processRecords, if_pos (Or.inl (by rw [h29]; omega))]
    rfl
  · intro h30
    have hcond : ¬((jsTrim r.text).length < 30 ∨
        fingerprint (jsTrim r.text) ∈ ([] : List (List Char))) := by
      rw [h30]; simp
    refine ⟨mkItem name now 0 (jsTrim r.text), ?_, rfl, ?_⟩
    · unfold processContent
      rw [processRecords, if_neg hcond]
      rfl
    · simp [mkItem, h30]

/-- C2 witness: the boundary cases evaluated at concrete 29- and 30-character
records. -/
theorem c2_length_boundary_witness :
    processContent [sampleRec29] sampleName sampleNow = [] ∧
    ∃ it, processContent [sampleRec30] sampleName sampleNow = [it] ∧
      it.fullContent = jsTrim sampleRec30.text ∧ it.contentLength = 30 :=
  ⟨(c2_length_boundary [sampleRec29] sampleName sampleNow sampleRec29).2.1 (by decide),
   (c2_length_boundary [sampleRec30] sampleName sampleNow sampleRec30).2.2 (by decide)⟩

/-- C3: within one batch no two emitted items share a first-100-character
fingerprint of their full text, and whenever an earlier record has the same
fingerprint as a later one, no item generated from the later index is
emitted.  The seen-set is created inside `processContent` itself (the pass
starts from the empty seen list), so no state crosses calls. -/
theorem c3_dedup (raw : List RawRecord) (name now : List Char) :
    List.Pairwise (fun a b => fingerprint a.fullContent ≠ fingerprint b.fullContent)
      (processContent raw name now) ∧
    ∀ j k, ∀ hj : j < raw.length, ∀ hk : k < raw.length, j < k →
      fingerprint (jsTrim (raw.get ⟨j, hj⟩).text) =
        fingerprint (jsTrim (raw.get ⟨k, hk⟩).text) →
      ∀ it ∈ processContent raw name now, it.id ≠ jsToLower name ++ '_' :: natChars k := by
  constructor
  · unfold processContent
    exact ((List.perm_insertionSort itemLE _).pairwise_iff
      (fun h => Ne.symm h)).mpr (processRecords_pairwise_fp _ _ _)
  · intro j k hj hk hjk hfp it hit hid
    rw [mem_processContent_iff] at hit
    obtain ⟨q, hq, heq, -, -, hnodup⟩ := processRecords_mem _ _ _ _ hit
    have hidq : it.id = jsToLower name ++ '_' :: natChars (0 + q) := by
      rw [heq]; simp [mkItem]
    have hqk : q = k := by
      have := mkId_inj (hidq.symm.trans hid)
      omega
    subst hqk
    exact hnodup j hj hjk hfp

/-- C3 witness: with two identical 30-character records, the item generated
from the later index is absent from the output. -/
theorem c3_dedup_witness :
    (mkItem sampleName sampleNow 0 (jsTrim sampleRec30.text)).id ≠
      jsToLower sampleName ++ '_' :: natChars 1 :=
  (c3_dedup [sampleRec30, sampleRec30] sampleName sampleNow).2 0 1 (by decide) (by decide)
    (by decide) (by decide) (mkItem sampleName sampleNow 0 (jsTrim sampleRec30.text))
    (by decide)

/-- C6: for every configured competitor, each emitted item id is the
competitor key (the lowercased display name) followed by an underscore and
the record's pre-filter index, and ids are pairwise distinct. -/
theorem c6_ids (raw : List RawRecord) (now : List Char) (c : Competitor)
    (hc : c ∈ competitors) :
    (∀ it ∈ processContent raw c.name now, ∃ k, ∃ hk : k < raw.length,
        it.id = c.key ++ '_' :: natChars k ∧
        it.fullContent = jsTrim (raw.get ⟨k, hk⟩).text) ∧
    List.Pairwise (fun a b => a.id ≠ b.id) (processContent raw c.name now) := by
  have hkey : jsToLower c.name = c.key := by
    rcases List.mem_cons.mp hc with rfl | hc2
    · decide
    rcases List.mem_cons.mp hc2 with rfl | hc3
    · decide
    rcases List.mem_cons.mp hc3 with rfl | hc4
    · decide
    simp at hc4
  constructor
  · intro it hit
    rw [mem_processContent_iff] at hit
    obtain ⟨k, hk, heq, -, -, -⟩ := processRecords_mem _ _ _ _ hit
    refine ⟨k, hk, ?_, ?_⟩
    · rw [heq]
      simp [mkItem, hkey]
    · rw [heq]
      simp [mkItem]
  · exact ((List.perm_insertionSort itemLE _).pairwise_iff
      (fun h => Ne.symm h)).mpr (processRecords_pairwise_id _ _ _)

/-- C6 witness: pairwise-distinct ids for a concrete batch under the Braze
configuration entry. -/
theorem c6_ids_witness :
    List.Pairwise (fun a b => a.id ≠ b.id)
      (processContent [sampleRec30, sampleNoTitleRec] brazeTarget.name sampleNow) :=
  (c6_ids [sampleRec30, sampleNoTitleRec] sampleNow brazeTarget (by decide)).2

/-- C7: `extractTitle` returns the sentinel exactly on input with no non-blank
line, otherwise the trimmed first non-blank line with ellipsis-marked
truncation past 100 characters, and it is idempotent on outputs shorter than
100 characters. -/
theorem c7_title (t : List Char) :
    ((splitLines t).filter (fun l => !(jsTrim l).isEmpty) = [] →
      extractTitle t = noTitle) ∧
    (∀ l ls, (splitLines t).filter (fun l => !(jsTrim l).isEmpty) = l :: ls →
      extractTitle t =
        if 100 < (jsTrim l).length then (jsTrim l).take 100 ++ ellipsis else jsTrim l) ∧
    ((extractTitle t).length < 100 → extractTitle (extractTitle t) = extractTitle t) :=
  ⟨fun h => extractTitle_of_filter_nil h,
   fun _ _ h => extractTitle_of_filter_cons h,
   fun h => extractTitle_idem h⟩

/-- C7 witness: the sentinel branch on whitespace-only text and idempotence on
a concrete derived title. -/
theorem c7_title_witness :
    extractTitle sampleBlank = noTitle ∧
    extractTitle (extractTitle sampleRec30.text) = extractTitle sampleRec30.text :=
  ⟨(c7_title sampleBlank).1 (by decide),
   (c7_title sampleRec30.text).2.2 (by decide)⟩

/-- C9: a failed fetch/extraction outcome for one target yields a result with
a non-null error, zero `itemCount` and no items, and `run` still produces one
result per target, each target contributing its own result. -/
theorem c9_error_isolation (targets : List Competitor)
    (oracle : Competitor → Except (List Char) (List RawRecord)) (now : List Char)
    (c : Competitor) (msg : List Char) (hc : oracle c = Except.error msg) :
    (scrapeCompetitor c (oracle c) now).error = some msg ∧
    (scrapeCompetitor c (oracle c) now).itemCount = 0 ∧
    (scrapeCompetitor c (oracle c) now).items = [] ∧
    (run targets oracle now).length = targets.length ∧
    ∀ c2 ∈ targets, scrapeCompetitor c2 (oracle c2) now ∈ run targets oracle now := by
  rw [hc]
  refine ⟨rfl, rfl, rfl, by simp [run], ?_⟩
  intro c2 hc2
  exact List.mem_map_of_mem _ hc2

/-- C9 witness: a timing-out oracle over the full configuration. -/
theorem c9_error_isolation_witness :
    (scrapeCompetitor brazeTarget (sampleOracle brazeTarget) sampleNow).error =
      some sampleErr ∧
    (run competitors sampleOracle sampleNow).length = competitors.length ∧
    scrapeCompetitor klaviyoTarget (sampleOracle klaviyoTarget) sampleNow ∈
      run competitors sampleOracle sampleNow :=
  ⟨(c9_error_isolation competitors sampleOracle sampleNow brazeTarget sampleErr rfl).1,
   (c9_error_isolation competitors sampleOracle sampleNow brazeTarget sampleErr
      rfl).2.2.2.1,
   (c9_error_isolation competitors sampleOracle sampleNow brazeTarget sampleErr
      rfl).2.2.2.2 klaviyoTarget (by decide)⟩

/-- C10 counterexample: an emitted item whose title is literally the sentinel
string, because its first line is the text `No title`; this refutes the claim
that emitted titles are never the sentinel. -/
theorem c10_counterexample :
    ¬ (∀ it ∈ processContent [sampleNoTitleRec] sampleName sampleNow,
        it.title ≠ noTitle) := by
  intro h
  exact h (mkItem sampleName sampleNow 0 (jsTrim sampleNoTitleRec.text)) (by decide)
    (by decide)

/-- C10 (amended): every emitted item's text has at least one non-blank line,
so the sentinel branch of `extractTitle` is unreachable for emitted items: the
title is always derived from the first non-blank line (it may still
coincidentally equal the sentinel text). -/
theorem c10_no_sentinel_branch (raw : List RawRecord) (name now : List Char) :
    ∀ it ∈ processContent raw name now,
      it.title = extractTitle it.fullContent ∧
      (splitLines it.fullContent).filter (fun l => !(jsTrim l).isEmpty) ≠ [] := by
  intro it hit
  rw [mem_processContent_iff] at hit
  obtain ⟨k, hk, heq, hlen, -, -⟩ := processRecords_mem _ _ _ _ hit
  rw [heq]
  simp only [mkItem]
  refine ⟨trivial, ?_⟩
  have hne : jsTrim (raw.get ⟨k, hk⟩).text ≠ [] := by
    intro h0
    rw [h0] at hlen
    simp at hlen
  exact exists_nonblank_line hne

/-- C10 witness: the amended statement evaluated on the sentinel-titled item. -/
theorem c10_no_sentinel_branch_witness :
    (mkItem sampleName sampleNow 0 (jsTrim sampleNoTitleRec.text)).title =
      extractTitle (mkItem sampleName sampleNow 0 (jsTrim sampleNoTitleRec.text)).fullContent ∧
    (splitLines (mkItem sampleName sampleNow 0
        (jsTrim sampleNoTitleRec.text)).fullContent).filter
      (fun l => !(jsTrim l).isEmpty) ≠ [] :=
  c10_no_sentinel_branch [sampleNoTitleRec] sampleName sampleNow
    (mkItem sampleName sampleNow 0 (jsTrim sampleNoTitleRec.text)) (by decide)

/-- C8 counterexample: an element whose trimmed visible text has exactly 20
characters is skipped (the source tests `length > 20`), refuting the claim
that such an element yields a record. -/
theorem c8_counterexample :
    (elementText sampleEl20).length = 20 ∧ elementText sampleEl20 ≠ [] ∧
    extractContentFromElements [sampleEl20] = [] :=
  ⟨by decide, by decide, by decide⟩

/-- C8 (amended): at most the first 20 elements are examined, and an element
contributes a record exactly when its trimmed visible text is longer than 20
characters — so exactly-20-character text is skipped and 21-character text is
kept. -/
theorem c8_element_filter (elements : List PageElement) :
    extractContentFromElements elements = extractContentFromElements (elements.take 20) ∧
    (extractContentFromElements elements).length ≤ 20 ∧
    (∀ r ∈ extractContentFromElements elements, 20 < r.text.length) ∧
    ∀ el ∈ elements.take 20,
      ((∃ r ∈ extractContentFromElements elements, r.text = elementText el) ↔
        20 < (elementText el).length) := by
  have hall : ∀ r ∈ extractContentFromElements elements, 20 < r.text.length := by
    intro r hr
    unfold extractContentFromElements at hr
    obtain ⟨el, hel, hf⟩ := List.mem_filterMap.mp hr
    by_cases hcond : elementText el ≠ [] ∧ 20 < (elementText el).length
    · rw [if_pos hcond, Option.some.injEq] at hf
      rw [← hf]
      exact hcond.2
    · rw [if_neg hcond] at hf
      exact absurd hf (by simp)
  refine ⟨?_, ?_, hall, ?_⟩
  · unfold extractContentFromElements
    rw [List.take_take, min_self]
  · exact le_trans (List.length_filterMap_le _ _)
      (by rw [List.length_take]; exact min_le_left _ _)
  · intro el hel
    constructor
    · rintro ⟨r, hr, htext⟩
      rw [← htext]
      exact hall r hr
    · intro h20
      refine ⟨{ text := elementText el,
                html := (match el.innerHTML with | some h => h.take 1000 | none => []),
                tagName := el.tagName,
                className := el.className }, ?_, rfl⟩
      unfold extractContentFromElements
      apply List.mem_filterMap.mpr
      refine ⟨el, hel, ?_⟩
      have hne : elementText el ≠ [] := by
        intro h0
        rw [h0] at h20
        simp at h20
      rw [if_pos ⟨hne, h20⟩]

/-- C8 witness for the amended statement: a 21-character element yields a
record. -/
theorem c8_element_filter_witness :
    20 < (elementText sampleEl21).length ∧
    ∃ r ∈ extractContentFromElements [sampleEl21], r.text = elementText sampleEl21 :=
  ⟨by decide,
   ((c8_element_filter [sampleEl21]).2.2.2 sampleEl21 (by decide)).mpr (by decide)⟩

/-- C4: emitted items carry the result of the date cascade applied to the
full trimmed text; the cascade returns the long-form family's leftmost match
whenever that family matches anywhere (only when it fails entirely are the
slash and ISO families consulted, in that order), and on text containing both
an ISO date and a long-form date the long-form substring is extracted even
though the ISO date occurs earlier. -/
theorem c4_date_cascade (raw : List RawRecord) (name now : List Char) (s : List Char) :
    (∀ it ∈ processContent raw name now, it.extractedDate = dateMatch it.fullContent) ∧
    ((scanWith matchAAt false s).isSome = true → dateMatch s = scanWith matchAAt false s) ∧
    (dateMatch s = none ↔ scanWith matchAAt false s = none ∧
      scanWith matchBAt false s = none ∧ scanWith matchCAt false s = none) ∧
    dateMatch sampleBothText = some "January 5, 2025".data := by
  refine ⟨?_, ?_, ?_, by decide⟩
  · intro it hit
    rw [mem_processContent_iff] at hit
    obtain ⟨k, hk, heq, -, -, -⟩ := processRecords_mem _ _ _ _ hit
    rw [heq]
    simp [mkItem]
  · intro hsome
    cases hA : scanWith matchAAt false s with
    | none => rw [hA] at hsome; simp at hsome
    | some m => simp [dateMatch, hA]
  · cases hA : scanWith matchAAt false s <;> cases hB : scanWith matchBAt false s <;>
      cases hC : scanWith matchCAt false s <;> simp [dateMatch, hA, hB, hC]

/-- C4 witness: the cascade at an item of a concrete batch, and the long-form
preference on text with an earlier ISO date. -/
theorem c4_date_cascade_witness :
    (mkItem sampleName sampleNow 0 (jsTrim sampleNoTitleRec.text)).extractedDate =
      dateMatch (mkItem sampleName sampleNow 0 (jsTrim sampleNoTitleRec.text)).fullContent ∧
    dateMatch sampleBothText = scanWith matchAAt false sampleBothText :=
  ⟨(c4_date_cascade [sampleNoTitleRec] sampleName sampleNow sampleBothText).1
      (mkItem sampleName sampleNow 0 (jsTrim sampleNoTitleRec.text)) (by decide),
   (c4_date_cascade [] sampleName sampleNow sampleBothText).2.1 (by decide)⟩

theorem kwAt_iff : ∀ {kw rest : List Char},
    kwAt kw rest = true ↔ ∃ w post, rest = w ++ post ∧ jsToLower w = kw ∧
      (∀ c, post.head? = some c → isWordCh c = false) := by
  intro kw
  induction kw with
  | nil =>
    intro rest
    constructor
    · intro h
      refine ⟨[], rest, rfl, rfl, ?_⟩
      intro c hc
      cases rest with
      | nil => simp at hc
      | cons r rst =>
        rw [List.head?_cons, Option.some.injEq] at hc
        have hb : (!isWordCh r) = true := h
        rw [← hc]
        simpa using hb
    · rintro ⟨w, post, hsplit, hlow, hpost⟩
      have hw : w = [] := by
        cases w with
        | nil => rfl
        | cons a as => simp [jsToLower] at hlow
      subst hw
      rw [List.nil_append] at hsplit
      subst hsplit
      cases rest with
      | nil => rfl
      | cons c cs =>
        have := hpost c rfl
        show (!isWordCh c) = true
        simp [this]
  | cons k ks ih =>
    intro rest
    cases rest with
    | nil =>
      constructor
      · intro h
        exact absurd h (by simp [kwAt])
      · rintro ⟨w, post, hsplit, hlow, hpost⟩
        have hww := List.append_eq_nil.mp hsplit.symm
        rw [hww.1] at hlow
        simp [jsToLower] at hlow
    | cons c cs =>
      rw [kwAt, Bool.and_eq_true]
      constructor
      · rintro ⟨hck, hrest⟩
        obtain ⟨w, post, h1, h2, h3⟩ := ih.mp hrest
        refine ⟨c :: w, post, by rw [h1]; rfl, ?_, h3⟩
        rw [beq_iff_eq] at hck
        simp only [jsToLower, List.map_cons, hck]
        simp only [jsToLower] at h2
        rw [h2]
      · rintro ⟨w, post, hsplit, hlow, hpost⟩
        cases w with
        | nil => simp [jsToLower] at hlow
        | cons c0 w' =>
          rw [List.cons_append, List.cons.injEq] at hsplit
          obtain ⟨rfl, hcs⟩ := hsplit
          simp only [jsToLower, List.map_cons, List.cons.injEq] at hlow
          refine ⟨by rw [hlow.1]; exact beq_self_eq_true k, ?_⟩
          apply ih.mpr
          exact ⟨w', post, hcs, hlow.2, hpost⟩

theorem kwHere_iff {rest : List Char} :
    kwHere rest = true ↔ ∃ w post, rest = w ++ post ∧ jsToLower w ∈ keywords ∧
      (∀ c, post.head? = some c → isWordCh c = false) := by
  unfold kwHere
  rw [List.any_eq_true]
  constructor
  · rintro ⟨kw, hkw, hat⟩
    obtain ⟨w, post, h1, h2, h3⟩ := kwAt_iff.mp hat
    exact ⟨w, post, h1, h2 ▸ hkw, h3⟩
  · rintro ⟨w, post, h1, h2, h3⟩
    exact ⟨jsToLower w, h2, kwAt_iff.mpr ⟨w, post, h1, rfl, h3⟩⟩

theorem kwScan_iff : ∀ (s : List Char) (prevW : Bool),
    kwScan prevW s = true ↔ ∃ pre w post, s = pre ++ (w ++ post) ∧
      jsToLower w ∈ keywords ∧
      ((pre = [] ∧ prevW = false) ∨ (∃ c, pre.getLast? = some c ∧ isWordCh c = false)) ∧
      (∀ c, post.head? = some c → isWordCh c = false) := by
  intro s
  induction s with
  | nil =>
    intro prevW
    constructor
    · intro h
      exact absurd h (by simp [kwScan])
    · rintro ⟨pre, w, post, hsplit, hkw, -, -⟩
      have h1 := List.append_eq_nil.mp hsplit.symm
      have h2 := List.append_eq_nil.mp h1.2
      rw [h2.1] at hkw
      have : ([] : List Char) ∈ keywords := hkw
      exact absurd this (by decide)
  | cons a cs ih =>
    intro prevW
    rw [kwScan, Bool.or_eq_true, Bool.and_eq_true]
    constructor
    · rintro (⟨hnp, hhere⟩ | hrec)
      · obtain ⟨w, post, h1, h2, h3⟩ := kwHere_iff.mp hhere
        refine ⟨[], w, post, by rw [List.nil_append]; exact h1, h2,
          Or.inl ⟨rfl, by simpa using hnp⟩, h3⟩
      · obtain ⟨pre, w, post, h1, h2, hpre, h4⟩ := (ih (isWordCh a)).mp hrec
        refine ⟨a :: pre, w, post, by rw [h1]; rfl, h2, ?_, h4⟩
        rcases hpre with ⟨rfl, hw⟩ | ⟨c, hc, hcw⟩
        · exact Or.inr ⟨a, rfl, hw⟩
        · refine Or.inr ⟨c, ?_, hcw⟩
          cases pre with
          | nil => simp at hc
          | cons p pre' => rw [List.getLast?_cons_cons]; exact hc
    · rintro ⟨pre, w, post, h1, h2, hpre, h4⟩
      cases pre with
      | nil =>
        have hp : prevW = false := by
          rcases hpre with ⟨-, h⟩ | ⟨c, hc, -⟩
          · exact h
          · simp at hc
        left
        rw [List.nil_append] at h1
        exact ⟨by simp [hp], kwHere_iff.mpr ⟨w, post, h1, h2, h4⟩⟩
      | cons p pre' =>
        right
        rw [List.cons_append, List.cons.injEq] at h1
        obtain ⟨rfl, hcs⟩ := h1
        apply (ih (isWordCh a)).mpr
        refine ⟨pre', w, post, hcs, h2, ?_, h4⟩
        rcases hpre with ⟨habs, -⟩ | ⟨c, hc, hcw⟩
        · exact absurd habs (by simp)
        · cases pre' with
          | nil =>
            left
            refine ⟨rfl, ?_⟩
            rw [List.getLast?_singleton, Option.some.injEq] at hc
            rw [hc]
            exact hcw
          | cons q pre'' =>
            right
            refine ⟨c, ?_, hcw⟩
            rw [List.getLast?_cons_cons] at hc
            exact hc

theorem isUpdateText_iff (s : List Char) : isUpdateText s = true ↔ HasKeyword s := by
  unfold isUpdateText HasKeyword
  rw [kwScan_iff]
  constructor
  · rintro ⟨pre, w, post, h1, h2, hpre, h4⟩
    refine ⟨pre, w, post, by rw [h1, List.append_assoc], h2, ?_, h4⟩
    rcases hpre with ⟨rfl, -⟩ | ⟨c, hc, hcw⟩
    · intro c hc
      simp at hc
    · intro c2 hc2
      rw [hc, Option.some.injEq] at hc2
      rw [← hc2]
      exact hcw
  · rintro ⟨pre, w, post, h1, h2, h3, h4⟩
    refine ⟨pre, w, post, by rw [h1, List.append_assoc], h2, ?_, h4⟩
    cases hpre : pre.getLast? with
    | none => exact Or.inl ⟨List.getLast?_eq_none_iff.mp hpre, rfl⟩
    | some c => exact Or.inr ⟨c, rfl, h3 c hpre⟩

/-- C5: an emitted item's `isLikelyUpdate` flag is set exactly when the full
trimmed text contains one of the ten keywords case-insensitively as a whole
word delimited by word boundaries; a keyword occurring merely as a substring
of a longer word (such as `new` inside `newsletter`) does not count. -/
theorem c5_classification (raw : List RawRecord) (name now : List Char) :
    (∀ it ∈ processContent raw name now,
      (it.isLikelyUpdate = true ↔ HasKeyword it.fullContent)) ∧
    isUpdateText sampleNewsletter = false := by
  refine ⟨?_, by decide⟩
  intro it hit
  rw [mem_processContent_iff] at hit
  obtain ⟨k, hk, heq, -, -, -⟩ := processRecords_mem _ _ _ _ hit
  rw [heq]
  simp only [mkItem]
  exact isUpdateText_iff _

/-- C5 witness: the classification equivalence at a concrete emitted item. -/
theorem c5_classification_witness :
    (mkItem sampleName sampleNow 0 (jsTrim sampleNoTitleRec.text)).isLikelyUpdate = true ↔
      HasKeyword (mkItem sampleName sampleNow 0 (jsTrim sampleNoTitleRec.text)).fullContent :=
  (c5_classification [sampleNoTitleRec] sampleName sampleNow).1
    (mkItem sampleName sampleNow 0 (jsTrim sampleNoTitleRec.text)) (by decide)

end CompetitorScanner
